import Mathlib

/-
Verification of the playground-directory site against its specification.

The repository is an Astro static site.  The build-time processing lives in
the frontmatter of the index page (processedPlaygrounds, createSlug,
determineArea, extractAmenities, featuredPlaygrounds), in the detail page
`playground/[slug].astro` (getStaticPaths and a guard), and in the
PlaygroundCard component (a guard).  Those parts are embedded below from the
source.  The enrichment engine described by the specification (merger,
cache, retry policy) is documented in the repository but its code is not
present; those components are modelled from the spec and are marked as such.

Strings are modelled as Lean strings (lists of characters); JavaScript
string primitives (toLowerCase, trim, startsWith, includes and the two
regex replacements used by createSlug) are given explicit character-level
models.
-/

namespace PlaygroundSite

/-- ASCII lower-casing of one character: model of the character-wise action
of JavaScript `toLowerCase` (the data contains ASCII names). -/
def jsToLowerChar (c : Char) : Char :=
  if 65 ≤ c.toNat ∧ c.toNat ≤ 90 then Char.ofNat (c.toNat + 32) else c

/-- Model of JavaScript `toLowerCase` on a whole string. -/
def jsToLower (s : String) : String := ⟨s.data.map jsToLowerChar⟩

/-- Whitespace recognised by the model of JavaScript `trim`. -/
def isJsWs (c : Char) : Bool := c.toNat = 32 ∨ c.toNat = 9 ∨ c.toNat = 10 ∨ c.toNat = 13

/-- Model of JavaScript `trim`: drop whitespace from both ends. -/
def jsTrim (l : List Char) : List Char :=
  ((l.dropWhile isJsWs).reverse.dropWhile isJsWs).reverse

/-- Characters kept by the slug regex `[^a-z0-9]+`: lowercase ASCII letters
and digits. -/
def isSlugChar (c : Char) : Bool :=
  (97 ≤ c.toNat ∧ c.toNat ≤ 122) ∨ (48 ≤ c.toNat ∧ c.toNat ≤ 57)

/-- Model of `replace(/[^a-z0-9]+/g, "-")`: every maximal run of non-slug
characters becomes a single hyphen.  The Boolean flag records whether the
scan is inside a run whose replacement hyphen has already been emitted. -/
def collapseAux : Bool → List Char → List Char
  | _, [] => []
  | inRun, c :: cs =>
    if isSlugChar c then c :: collapseAux false cs
    else if inRun then collapseAux true cs
    else '-' :: collapseAux true cs

/-- Replace every maximal run of non-slug characters by one hyphen. -/
def collapse (l : List Char) : List Char := collapseAux false l

/-- Remove one leading hyphen, if present. -/
def stripLeadHyph (l : List Char) : List Char :=
  if l.head? = some '-' then l.tail else l

/-- Model of `replace(/(^-|-$)/g, "")`: remove one leading and one trailing
hyphen. -/
def stripEnds (l : List Char) : List Char :=
  (stripLeadHyph (stripLeadHyph l).reverse).reverse

/-- The createSlug function defined inside processedPlaygrounds on the index
page: lowercase, trim, collapse non-alphanumeric runs to hyphens, strip edge
hyphens. -/
def createSlugIndex (name : String) : String :=
  ⟨stripEnds (collapse (jsTrim (jsToLower name).data))⟩

/-- The createSlug function defined inside getStaticPaths of the detail page
`playground/[slug].astro`; the source duplicates the index-page function
verbatim. -/
def createSlugDetail (name : String) : String :=
  ⟨stripEnds (collapse (jsTrim (jsToLower name).data))⟩

/-- Model of JavaScript `startsWith` on the character lists. -/
def jsStartsWith (pre s : String) : Bool := List.isPrefixOf pre.data s.data

/-- Model of substring containment on character lists (JavaScript
`includes`). -/
def listContainsSub (needle : List Char) : List Char → Bool
  | [] => needle.isEmpty
  | c :: cs => List.isPrefixOf needle (c :: cs) || listContainsSub needle cs

/-- Model of JavaScript `s.includes(sub)`. -/
def jsIncludes (s sub : String) : Bool := listContainsSub sub.data s.data

/-- ASCII upper-casing of one character: model of the character-wise action
of JavaScript `toUpperCase`. -/
def jsToUpperChar (c : Char) : Char :=
  if 97 ≤ c.toNat ∧ c.toNat ≤ 122 then Char.ofNat (c.toNat - 32) else c

/-- Model of JavaScript `toUpperCase` on a whole string. -/
def jsToUpper (s : String) : String := ⟨s.data.map jsToUpperChar⟩

/-- determineArea from the index page: classify a postal code by its
(upper-cased) leading letters; an empty (falsy) code is Unknown. -/
def determineArea (postalCode : String) : String :=
  if postalCode = "" then "Unknown"
  else
    let code := jsToUpper postalCode
    if jsStartsWith "N" code then "North London"
    else if jsStartsWith "S" code then "South London"
    else if jsStartsWith "E" code then "East London"
    else if jsStartsWith "W" code then "West London"
    else if jsStartsWith "WC" code || jsStartsWith "EC" code then "Central London"
    else "Other London"

/-- The keyword-to-amenity table of extractAmenities, in source order. -/
def amenityKeywords : List (String × String) :=
  [("swing", "Swings"), ("slide", "Slides"), ("climb", "Climbing Frame"),
   ("sand", "Sandbox"), ("water", "Water Play"), ("seat", "Seating Area"),
   ("toilet", "Toilets"), ("parking", "Parking")]

/-- The combined search text of extractAmenities: description and subtypes
joined by a space, lower-cased. -/
def searchText (description subtypes : String) : String :=
  jsToLower (description ++ " " ++ subtypes)

/-- extractAmenities from the index page: scan the keyword table in order
and collect, into an insertion-ordered set, the amenity of every keyword
occurring in the combined search text. -/
def extractAmenities (description subtypes : String) : List String :=
  amenityKeywords.foldl
    (fun acc ka =>
      if jsIncludes (searchText description subtypes) ka.1 && !(acc.contains ka.2)
      then acc ++ [ka.2] else acc)
    []

/-- An input record of london_playgrounds.json, with the fields the embedded
pages read.  A missing or non-string name is modelled as none. -/
structure Playground where
  name : Option String
  street : String
  postal_code : String
  description : String
  subtypes : String
  rating : Int
  reviews : Int
deriving DecidableEq

/-- An element of processedPlaygrounds: the JavaScript spread keeps every
original field (collected in orig) and adds slug, area and amenities. -/
structure ProcessedPlayground where
  orig : Playground
  slug : String
  area : String
  amenities : List String
deriving DecidableEq

/-- The validity filter of both pages: the name must be present, a string
and truthy (non-empty). -/
def validName (p : Playground) : Bool :=
  match p.name with
  | some s => s != ""
  | none => false

/-- The enrichment step of processedPlaygrounds: spread the original record
and add slug, area and amenities. -/
def enrich (p : Playground) : ProcessedPlayground :=
  { orig := p
    slug := createSlugIndex (p.name.getD "")
    area := determineArea p.postal_code
    amenities := extractAmenities p.description p.subtypes }

/-- processedPlaygrounds from the index page: filter records with a valid
name, enrich them, and keep only those with a truthy (non-empty) slug. -/
def processedPlaygrounds (ps : List Playground) : List ProcessedPlayground :=
  ((ps.filter validName).map enrich).filter (fun q => q.slug != "")

/-- The comparator of the featured sort, `(a, b) => b.rating - a.rating`:
a may precede b when its rating is at least b's. -/
def ratingDescLe (a b : ProcessedPlayground) : Bool := b.orig.rating ≤ a.orig.rating

/-- Stable insertion into a descending-rated list: the inserted element goes
before the first element whose rating it reaches, and after earlier equal
ratings it was listed behind. -/
def insertDesc (q : ProcessedPlayground) : List ProcessedPlayground → List ProcessedPlayground
  | [] => [q]
  | r :: rs => if ratingDescLe q r then q :: r :: rs else r :: insertDesc q rs

/-- The stable descending-by-rating sort performed by the featured
computation (JavaScript `Array.prototype.sort` is stable, so its result is
the unique stable descending reordering, which insertion sort computes). -/
def sortRatingDesc : List ProcessedPlayground → List ProcessedPlayground
  | [] => []
  | q :: qs => insertDesc q (sortRatingDesc qs)

/-- The value of the processedPlaygrounds binding after the featured
computation runs: JavaScript `Array.prototype.sort` sorts the array in
place, so computing featuredPlaygrounds leaves processedPlaygrounds sorted
by descending rating. -/
def processedAfterFeatured (ps : List Playground) : List ProcessedPlayground :=
  sortRatingDesc (processedPlaygrounds ps)

/-- featuredPlaygrounds from the index page: the six highest-rated records
of the in-place sort. -/
def featuredPlaygrounds (ps : List Playground) : List ProcessedPlayground :=
  (processedAfterFeatured ps).take 6

/-- getStaticPaths of the detail page: one (slug, playground) static path
per record with a valid name and a non-empty slug; records with an empty
slug are mapped to null and filtered out. -/
def getStaticPaths (ps : List Playground) : List (String × Playground) :=
  (ps.filter validName).filterMap (fun p =>
    let slug := createSlugDetail (p.name.getD "")
    if slug = "" then none else some (slug, p))

/-- The PlaygroundCard frontmatter guard: throw when the playground is
absent or its slug is falsy, otherwise render. -/
def playgroundCard (playground : Option ProcessedPlayground) : Except String Unit :=
  match playground with
  | none => Except.error "Invalid playground data: missing slug"
  | some q =>
    if q.slug = "" then Except.error "Invalid playground data: missing slug"
    else Except.ok ()

/-- The detail-page guard: throw when the playground prop is absent or its
name is falsy, otherwise render. -/
def playgroundPage (playground : Option Playground) : Except String Unit :=
  match playground with
  | none => Except.error "Invalid playground data"
  | some p =>
    if p.name.getD "" = "" then Except.error "Invalid playground data"
    else Except.ok ()


/-- Two adjacent characters are never both hyphens. -/
def NoHH (a b : Char) : Prop := ¬(a = '-' ∧ b = '-')

lemma mem_collapseAux {b : Bool} {l : List Char} {c : Char} (h : c ∈ collapseAux b l) :
    isSlugChar c = true ∨ c = '-' := by
  induction l generalizing b with
  | nil => simp [collapseAux] at h
  | cons x xs ih =>
    simp only [collapseAux] at h
    split at h
    · rcases List.mem_cons.mp h with rfl | h
      · left; assumption
      · exact ih h
    · split at h
      · exact ih h
      · rcases List.mem_cons.mp h with rfl | h
        · right; rfl
        · exact ih h

lemma collapseAux_true_head (l : List Char) :
    collapseAux true l = [] ∨
    ∃ c cs, collapseAux true l = c :: cs ∧ isSlugChar c = true := by
  induction l with
  | nil => left; rfl
  | cons x xs ih =>
    by_cases hx : isSlugChar x
    · right; exact ⟨x, collapseAux false xs, by simp [collapseAux, hx], hx⟩
    · simpa [collapseAux, hx] using ih

lemma chain'_collapseAux (b : Bool) (l : List Char) :
    List.Chain' NoHH (collapseAux b l) := by
  induction l generalizing b with
  | nil => simp [collapseAux]
  | cons x xs ih =>
    by_cases hx : isSlugChar x
    · simp only [collapseAux, hx, if_true]
      rw [List.chain'_cons']
      refine ⟨?_, ih false⟩
      intro y _ hcon
      rw [hcon.1] at hx
      simp [isSlugChar] at hx
    · cases b with
      | true => simpa [collapseAux, hx] using ih true
      | false =>
        have hrw : collapseAux false (x :: xs) = '-' :: collapseAux true xs := by
          simp [collapseAux, hx]
        rw [hrw, List.chain'_cons']
        refine ⟨?_, ih true⟩
        intro y hy hcon
        rcases collapseAux_true_head xs with h | ⟨c, cs, heq, hslug⟩
        · rw [h] at hy; simp at hy
        · rw [heq] at hy; simp at hy
          rw [hy, hcon.2] at hslug
          simp [isSlugChar] at hslug

lemma mem_stripLeadHyph {c : Char} {l : List Char} (h : c ∈ stripLeadHyph l) : c ∈ l := by
  unfold stripLeadHyph at h
  split at h
  · exact (List.tail_sublist l).subset h
  · exact h

lemma chain'_stripLeadHyph {R : Char → Char → Prop} {l : List Char}
    (h : List.Chain' R l) : List.Chain' R (stripLeadHyph l) := by
  unfold stripLeadHyph
  split
  · exact h.tail
  · exact h

lemma head_stripLeadHyph {l : List Char} (h : List.Chain' NoHH l) :
    (stripLeadHyph l).head? ≠ some '-' := by
  unfold stripLeadHyph
  split
  case isTrue hh =>
    cases l with
    | nil => simp at hh
    | cons x xs =>
      simp at hh
      subst hh
      rw [List.chain'_cons'] at h
      intro hsome
      cases xs with
      | nil => simp at hsome
      | cons y ys =>
        simp at hsome
        exact h.1 y (by simp) ⟨rfl, hsome⟩
  case isFalse hh => exact hh

lemma stripLeadHyph_id {l : List Char} (h : l.head? ≠ some '-') : stripLeadHyph l = l :=
  if_neg h

lemma noHH_flip {a b : Char} (h : NoHH a b) : NoHH b a := fun hc => h ⟨hc.2, hc.1⟩

lemma chain'_reverse_noHH {l : List Char} (h : List.Chain' NoHH l) :
    List.Chain' NoHH l.reverse := by
  rw [List.chain'_reverse]
  exact h.imp fun a b hab => noHH_flip hab

lemma mem_stripEnds {c : Char} {l : List Char} (h : c ∈ stripEnds l) : c ∈ l := by
  unfold stripEnds at h
  have h1 := mem_stripLeadHyph (List.mem_reverse.mp h)
  exact mem_stripLeadHyph (List.mem_reverse.mp h1)

lemma chain'_stripEnds {l : List Char} (h : List.Chain' NoHH l) :
    List.Chain' NoHH (stripEnds l) := by
  unfold stripEnds
  exact chain'_reverse_noHH (chain'_stripLeadHyph (chain'_reverse_noHH (chain'_stripLeadHyph h)))

lemma getLast?_tail_cases (l : List Char) :
    l.tail.getLast? = none ∨ l.tail.getLast? = l.getLast? := by
  cases l with
  | nil => left; rfl
  | cons x xs =>
    cases xs with
    | nil => left; rfl
    | cons y ys => right; simp [List.getLast?_cons_cons]

lemma head_stripEnds {l : List Char} (h : List.Chain' NoHH l) :
    (stripEnds l).head? ≠ some '-' := by
  unfold stripEnds
  have hmhead := head_stripLeadHyph h
  by_cases hrev : (stripLeadHyph l).reverse.head? = some '-'
  · rw [stripLeadHyph, if_pos hrev, List.head?_reverse]
    rcases getLast?_tail_cases (stripLeadHyph l).reverse with h0 | h0
    · rw [h0]; simp
    · rw [h0, List.getLast?_reverse]
      exact hmhead
  · rw [stripLeadHyph, if_neg hrev, List.reverse_reverse]
    exact hmhead

lemma getLast_stripEnds {l : List Char} (h : List.Chain' NoHH l) :
    (stripEnds l).getLast? ≠ some '-' := by
  unfold stripEnds
  rw [List.getLast?_reverse]
  exact head_stripLeadHyph (chain'_reverse_noHH (chain'_stripLeadHyph h))

lemma stripEnds_id {l : List Char} (h1 : l.head? ≠ some '-') (h2 : l.getLast? ≠ some '-') :
    stripEnds l = l := by
  unfold stripEnds
  rw [stripLeadHyph_id h1, stripLeadHyph_id (by rw [List.head?_reverse]; exact h2),
    List.reverse_reverse]

lemma collapse_eq_self {l : List Char}
    (hg : ∀ c ∈ l, isSlugChar c = true ∨ c = '-') (hc : List.Chain' NoHH l) :
    collapseAux false l = l ∧ (l.head? ≠ some '-' → collapseAux true l = l) := by
  induction l with
  | nil => exact ⟨rfl, fun _ => rfl⟩
  | cons x xs ih =>
    have hgxs : ∀ c ∈ xs, isSlugChar c = true ∨ c = '-' := fun c hcm => hg c (by simp [hcm])
    have hcxs : List.Chain' NoHH xs := hc.tail
    rcases hg x (by simp) with hx | hx
    · constructor
      · have hrw : collapseAux false (x :: xs) = x :: collapseAux false xs := by
          simp [collapseAux, hx]
        rw [hrw, (ih hgxs hcxs).1]
      · intro _
        have hrw : collapseAux true (x :: xs) = x :: collapseAux false xs := by
          simp [collapseAux, hx]
        rw [hrw, (ih hgxs hcxs).1]
    · subst hx
      constructor
      · have hrw : collapseAux false ('-' :: xs) = '-' :: collapseAux true xs := by
          simp [collapseAux, isSlugChar]
        rw [hrw]
        congr 1
        apply (ih hgxs hcxs).2
        rw [List.chain'_cons'] at hc
        intro hsome
        cases xs with
        | nil => simp at hsome
        | cons y ys =>
          simp at hsome
          exact hc.1 y (by simp) ⟨rfl, hsome⟩
      · intro hhd
        exact absurd rfl hhd

lemma collapse_self {l : List Char}
    (hg : ∀ c ∈ l, isSlugChar c = true ∨ c = '-') (hc : List.Chain' NoHH l) :
    collapse l = l :=
  (collapse_eq_self hg hc).1

lemma jsToLowerChar_eq_self {c : Char} (h : isSlugChar c = true ∨ c = '-') :
    jsToLowerChar c = c := by
  rcases h with h | rfl
  · simp [isSlugChar] at h
    unfold jsToLowerChar
    rw [if_neg (by omega)]
  · decide

lemma isJsWs_eq_false {c : Char} (h : isSlugChar c = true ∨ c = '-') : isJsWs c = false := by
  rcases h with h | rfl
  · simp [isSlugChar] at h
    simp [isJsWs]
    omega
  · decide

lemma map_lower_eq_self {l : List Char} (h : ∀ c ∈ l, isSlugChar c = true ∨ c = '-') :
    l.map jsToLowerChar = l := by
  induction l with
  | nil => rfl
  | cons x xs ih =>
    rw [List.map_cons, jsToLowerChar_eq_self (h x (by simp)),
      ih fun c hcm => h c (by simp [hcm])]

lemma dropWhile_eq_self_of {p : Char → Bool} {l : List Char} (h : ∀ c ∈ l, p c = false) :
    l.dropWhile p = l := by
  cases l with
  | nil => rfl
  | cons x xs =>
    rw [List.dropWhile_cons]
    simp [h x (by simp)]

lemma jsTrim_eq_self {l : List Char} (h : ∀ c ∈ l, isJsWs c = false) : jsTrim l = l := by
  unfold jsTrim
  rw [dropWhile_eq_self_of h,
    dropWhile_eq_self_of fun c hcm => h c (List.mem_reverse.mp hcm),
    List.reverse_reverse]

/-- C9: createSlug output shape and idempotence (proved about the detail-page
copy, which is extensionally equal to the index-page copy). -/
theorem createSlug_shape_idempotent (s : String) :
    (∀ c ∈ (createSlugDetail s).data, isSlugChar c = true ∨ c = '-') ∧
    List.Chain' NoHH (createSlugDetail s).data ∧
    (createSlugDetail s).data.head? ≠ some '-' ∧
    (createSlugDetail s).data.getLast? ≠ some '-' ∧
    createSlugDetail (createSlugDetail s) = createSlugDetail s := by
  have hdata : (createSlugDetail s).data
      = stripEnds (collapse (jsTrim (jsToLower s).data)) := rfl
  have hchainT : List.Chain' NoHH (collapse (jsTrim (jsToLower s).data)) :=
    chain'_collapseAux false _
  have hg : ∀ c ∈ (createSlugDetail s).data, isSlugChar c = true ∨ c = '-' := by
    intro c hcm
    rw [hdata] at hcm
    exact mem_collapseAux (mem_stripEnds hcm)
  have hchain : List.Chain' NoHH (createSlugDetail s).data := by
    rw [hdata]; exact chain'_stripEnds hchainT
  have hhd : (createSlugDetail s).data.head? ≠ some '-' := by
    rw [hdata]; exact head_stripEnds hchainT
  have hlast : (createSlugDetail s).data.getLast? ≠ some '-' := by
    rw [hdata]; exact getLast_stripEnds hchainT
  refine ⟨hg, hchain, hhd, hlast, ?_⟩
  show (⟨stripEnds (collapse (jsTrim (jsToLower (createSlugDetail s)).data))⟩ : String)
      = createSlugDetail s
  have h1 : (jsToLower (createSlugDetail s)).data = (createSlugDetail s).data := by
    show ((createSlugDetail s).data.map jsToLowerChar) = _
    exact map_lower_eq_self hg
  rw [h1, jsTrim_eq_self fun c hcm => isJsWs_eq_false (hg c hcm),
    collapse_self hg hchain, stripEnds_id hhd hlast]


lemma mem_amFold (st : String) (L : List (String × String)) (acc : List String) (x : String) :
    x ∈ L.foldl
      (fun acc ka => if jsIncludes st ka.1 && !(acc.contains ka.2) then acc ++ [ka.2] else acc)
      acc ↔
    x ∈ acc ∨ ∃ ka ∈ L, jsIncludes st ka.1 = true ∧ x = ka.2 := by
  induction L generalizing acc with
  | nil => simp
  | cons ka L' ih =>
    rw [List.foldl_cons, ih]
    have hstep : (x ∈ if jsIncludes st ka.1 && !(acc.contains ka.2) then acc ++ [ka.2] else acc)
        ↔ x ∈ acc ∨ (jsIncludes st ka.1 = true ∧ x = ka.2) := by
      by_cases hinc : jsIncludes st ka.1 = true
      · by_cases hcont : acc.contains ka.2 = true
        · have hmem : ka.2 ∈ acc := by simpa using hcont
          rw [if_neg (by simp [hinc, hmem])]
          constructor
          · exact fun h => Or.inl h
          · rintro (h | ⟨-, rfl⟩)
            · exact h
            · exact hmem
        · have hnm : ka.2 ∉ acc := by simpa using eq_false_of_ne_true hcont
          rw [if_pos (by simp [hinc, hnm])]
          simp [hinc, List.mem_append]
      · rw [if_neg (by simp [hinc])]
        simp [hinc]
    rw [hstep]
    constructor
    · rintro ((h | h) | ⟨ka', h1, h2, h3⟩)
      · exact Or.inl h
      · exact Or.inr ⟨ka, by simp, h⟩
      · exact Or.inr ⟨ka', by simp [h1], h2, h3⟩
    · rintro (h | ⟨ka', h1, h2, h3⟩)
      · exact Or.inl (Or.inl h)
      · rcases List.mem_cons.mp h1 with rfl | h1
        · exact Or.inl (Or.inr ⟨h2, h3⟩)
        · exact Or.inr ⟨ka', h1, h2, h3⟩

lemma nodup_amFold (st : String) (L : List (String × String)) (acc : List String)
    (h : acc.Nodup) :
    (L.foldl
      (fun acc ka => if jsIncludes st ka.1 && !(acc.contains ka.2) then acc ++ [ka.2] else acc)
      acc).Nodup := by
  induction L generalizing acc with
  | nil => exact h
  | cons ka L' ih =>
    rw [List.foldl_cons]
    apply ih
    by_cases hinc : jsIncludes st ka.1 = true
    · by_cases hcont : acc.contains ka.2 = true
      · have hmem : ka.2 ∈ acc := by simpa using hcont
        rw [if_neg (by simp [hinc, hmem])]
        exact h
      · have hnm : ka.2 ∉ acc := by simpa using eq_false_of_ne_true hcont
        rw [if_pos (by simp [hinc, hnm])]
        exact List.nodup_append.mpr ⟨h, List.nodup_singleton _, by
          intro a ha hb
          simp at hb
          subst hb
          exact hnm ha⟩
    · rw [if_neg (by simp [hinc])]
      exact h

/-- C4: the amenities list has no duplicates, and contains an amenity of the
keyword table exactly when its keyword occurs in the combined search text. -/
theorem extractAmenities_nodup_mem (d s : String) :
    (extractAmenities d s).Nodup ∧
    ∀ k a, (k, a) ∈ amenityKeywords →
      (a ∈ extractAmenities d s ↔ jsIncludes (searchText d s) k = true) := by
  constructor
  · exact nodup_amFold _ _ _ List.nodup_nil
  · intro k a hka
    unfold extractAmenities
    rw [mem_amFold]
    simp only [List.not_mem_nil, false_or]
    constructor
    · rintro ⟨ka', hka', hinc, heq⟩
      simp only [amenityKeywords, List.mem_cons, List.not_mem_nil, or_false] at hka hka'
      rcases hka' with h' | h' | h' | h' | h' | h' | h' | h' <;> subst h' <;> simp_all
    · intro hinc
      exact ⟨(k, a), hka, hinc, rfl⟩


lemma insertDesc_perm (q : ProcessedPlayground) (l : List ProcessedPlayground) :
    (insertDesc q l).Perm (q :: l) := by
  induction l with
  | nil => exact List.Perm.refl _
  | cons r rs ih =>
    unfold insertDesc
    split
    · exact List.Perm.refl _
    · exact (ih.cons r).trans (List.Perm.swap q r rs)

lemma sortRatingDesc_perm (l : List ProcessedPlayground) : (sortRatingDesc l).Perm l := by
  induction l with
  | nil => exact List.Perm.refl _
  | cons q qs ih =>
    exact (insertDesc_perm q (sortRatingDesc qs)).trans (ih.cons q)

lemma processed_eq (ps : List Playground) :
    processedPlaygrounds ps =
      (ps.filter fun p => validName p && (createSlugIndex (p.name.getD "") != "")).map enrich := by
  unfold processedPlaygrounds
  rw [List.filter_map, List.filter_filter]
  refine congrArg _ (List.filter_congr ?_)
  intro a _
  exact Bool.and_comm _ _

/-- Helper: the two createSlug copies have identical definitions. -/
lemma createSlug_copies_eq (s : String) : createSlugIndex s = createSlugDetail s := rfl

/-- A first valid example record. -/
def pgValid1 : Playground :=
  { name := some "Alpha Park", street := "1 A St", postal_code := "N1",
    description := "swings here", subtypes := "Playground", rating := 1, reviews := 10 }

/-- A second valid example record with a higher rating. -/
def pgValid2 : Playground :=
  { name := some "Beta Park", street := "2 B St", postal_code := "SE5",
    description := "a slide", subtypes := "Playground", rating := 5, reviews := 3 }

/-- An example record whose name has no alphanumeric characters, so its slug
is empty. -/
def pgBadName : Playground :=
  { name := some "!!!", street := "3 C St", postal_code := "E2",
    description := "", subtypes := "", rating := 4, reviews := 0 }

theorem processed_drop_and_reorder_cex :
    (processedPlaygrounds [pgValid1, pgValid2, pgBadName]).length ≠
      ([pgValid1, pgValid2, pgBadName] : List Playground).length ∧
    processedAfterFeatured [pgValid1, pgValid2, pgBadName] ≠
      processedPlaygrounds [pgValid1, pgValid2, pgBadName] := by
  decide

theorem processedPlaygrounds_characterization (ps : List Playground) :
    processedPlaygrounds ps =
      (ps.filter fun p => validName p && (createSlugIndex (p.name.getD "") != "")).map enrich ∧
    (processedAfterFeatured ps).Perm (processedPlaygrounds ps) :=
  ⟨processed_eq ps, sortRatingDesc_perm _⟩

theorem processed_retains_original_fields (ps : List Playground) (q : ProcessedPlayground)
    (hq : q ∈ processedPlaygrounds ps) :
    q.orig ∈ ps ∧ q = enrich q.orig := by
  rw [processed_eq] at hq
  rcases List.mem_map.mp hq with ⟨p, hp, rfl⟩
  exact ⟨(List.mem_filter.mp hp).1, rfl⟩

theorem processed_retains_original_fields_witness :
    (enrich pgValid1).orig ∈ [pgValid1] ∧ enrich pgValid1 = enrich (enrich pgValid1).orig :=
  processed_retains_original_fields [pgValid1] (enrich pgValid1) (by decide)

theorem playgroundCard_throws_cex :
    playgroundCard (some { orig := pgBadName, slug := "", area := "Unknown", amenities := [] }) =
      Except.error "Invalid playground data: missing slug" := rfl

theorem pipeline_guards_never_throw (ps : List Playground) :
    (∀ q ∈ processedPlaygrounds ps, playgroundCard (some q) = Except.ok ()) ∧
    (∀ sp ∈ getStaticPaths ps, playgroundPage (some sp.2) = Except.ok ()) := by
  constructor
  · intro q hq
    unfold processedPlaygrounds at hq
    have hslug := (List.mem_filter.mp hq).2
    rw [bne_iff_ne] at hslug
    have hcard : playgroundCard (some q)
        = if q.slug = "" then Except.error "Invalid playground data: missing slug"
          else Except.ok () := rfl
    rw [hcard, if_neg hslug]
  · intro sp hsp
    unfold getStaticPaths at hsp
    rcases List.mem_filterMap.mp hsp with ⟨p, hp, hres⟩
    have hvn := (List.mem_filter.mp hp).2
    simp only at hres
    split at hres
    · exact absurd hres (by simp)
    · rcases Option.some.inj hres with rfl
      have hne : p.name.getD "" ≠ "" := by
        unfold validName at hvn
        cases hname : p.name with
        | none => rw [hname] at hvn; exact absurd hvn (by decide)
        | some n =>
          rw [hname] at hvn
          simp only [Option.getD_some]
          exact bne_iff_ne.mp hvn
      have hpage : playgroundPage (some p)
          = if p.name.getD "" = "" then Except.error "Invalid playground data"
            else Except.ok () := rfl
      show playgroundPage (some p) = Except.ok ()
      rw [hpage, if_neg hne]

theorem pipeline_guards_never_throw_witness :
    playgroundCard (some (enrich pgValid1)) = Except.ok () :=
  (pipeline_guards_never_throw [pgValid1]).1 (enrich pgValid1) (by decide)

theorem createSlug_duplicates_agree_and_links_covered :
    (∀ s, createSlugIndex s = createSlugDetail s) ∧
    ∀ (ps : List Playground) (q : ProcessedPlayground), q ∈ processedPlaygrounds ps →
      q.slug ∈ (getStaticPaths ps).map Prod.fst := by
  refine ⟨createSlug_copies_eq, ?_⟩
  intro ps q hq
  rw [processed_eq] at hq
  rcases List.mem_map.mp hq with ⟨p, hp, rfl⟩
  rcases List.mem_filter.mp hp with ⟨hpmem, hcond⟩
  rw [Bool.and_eq_true] at hcond
  obtain ⟨hvn, hslug⟩ := hcond
  rw [bne_iff_ne] at hslug
  apply List.mem_map.mpr
  refine ⟨(createSlugDetail (p.name.getD ""), p), ?_, ?_⟩
  · apply List.mem_filterMap.mpr
    refine ⟨p, List.mem_filter.mpr ⟨hpmem, hvn⟩, ?_⟩
    simp only
    rw [if_neg]
    rw [← createSlug_copies_eq]
    exact hslug
  · show createSlugDetail (p.name.getD "") = (enrich p).slug
    exact (createSlug_copies_eq _).symm

theorem createSlug_duplicates_agree_witness :
    (enrich pgValid1).slug ∈ (getStaticPaths [pgValid1]).map Prod.fst :=
  createSlug_duplicates_agree_and_links_covered.2 [pgValid1] (enrich pgValid1) (by decide)

lemma isPrefixOf_of_isPrefixOf_cons {a b : Char} {l : List Char}
    (h : List.isPrefixOf [a, b] l = true) : List.isPrefixOf [a] l = true := by
  cases l with
  | nil => simp [List.isPrefixOf] at h
  | cons x xs =>
    simp [List.isPrefixOf] at h ⊢
    exact h.1

/-- C10: determineArea always returns one of the seven area strings, and the
Central London branch is unreachable because a WC or EC code is already
caught by the W or E test. -/
theorem determineArea_range (pc : String) :
    determineArea pc ∈ ["Unknown", "North London", "South London", "East London",
      "West London", "Central London", "Other London"] ∧
    determineArea pc ≠ "Central London" := by
  simp only [determineArea]
  split_ifs with h1 h2 h3 h4 h5 h6
  · exact ⟨by simp, by decide⟩
  · exact ⟨by simp, by decide⟩
  · exact ⟨by simp, by decide⟩
  · exact ⟨by simp, by decide⟩
  · exact ⟨by simp, by decide⟩
  · exfalso
    simp only [jsStartsWith, Bool.or_eq_true] at h6 h5 h4
    rcases h6 with h | h
    · exact h5 (isPrefixOf_of_isPrefixOf_cons h)
    · exact h4 (isPrefixOf_of_isPrefixOf_cons h)
  · exact ⟨by simp, by decide⟩

/-- C9 witness: a character of a concrete slug is within the allowed
alphabet. -/
theorem createSlug_shape_idempotent_witness :
    isSlugChar 'a' = true ∨ 'a' = '-' :=
  (createSlug_shape_idempotent "Alpha Park").1 'a' (by decide)

/-- C4 witness: the swings keyword decides membership of "Swings" for a
concrete record text. -/
theorem extractAmenities_nodup_mem_witness :
    "Swings" ∈ extractAmenities "Nice swings and a sandpit" "playground" ↔
      jsIncludes (searchText "Nice swings and a sandpit" "playground") "swing" = true :=
  (extractAmenities_nodup_mem "Nice swings and a sandpit" "playground").2 "swing" "Swings"
    (by decide)

/-- Identifier of an external data source (spec sections 2 and 4.1). -/
inductive SourceId
  | places
  | reviewSite
  | council
deriving DecidableEq

/-- Modelled from the spec: PartialEnrichment (section 3) — the sparse
canonical fields contributed by one source, tagged with its id.  The
enrichment engine's code is not in the repository; only the rating field,
which the claim exercises, is carried. -/
structure PartialEnrichment where
  source : SourceId
  rating : Option ℚ
deriving DecidableEq

/-- Provenance-carrying resolution of one scalar field (section 4.5). -/
structure ScalarResolution where
  value : Option ℚ
  reportedBy : List SourceId
  winner : Option SourceId
deriving DecidableEq

/-- Modelled from the spec: the Merger's scalar-field rule (section 4.5) —
the first source in the fixed priority order that reported the field wins;
provenance lists every reporter and the chosen winner. -/
def resolveRating (priority : List SourceId) (parts : List PartialEnrichment) :
    ScalarResolution :=
  { value := priority.findSome? fun s =>
      parts.findSome? fun p => if p.source = s then p.rating else none
    reportedBy := (parts.filter fun p => p.rating.isSome).map (fun p => p.source)
    winner := priority.find? fun s =>
      parts.any fun p => p.source == s && p.rating.isSome }

/-- C3: with priority Places before ReviewSite, ratings 4.5 from Places and
3.0 from ReviewSite merge to 4.5, with both sources as reporters and Places
as the winner. -/
theorem merge_rating_priority_example :
    resolveRating [SourceId.places, SourceId.reviewSite]
      [{ source := SourceId.places, rating := some (9 / 2) },
       { source := SourceId.reviewSite, rating := some 3 }] =
    { value := some (9 / 2),
      reportedBy := [SourceId.places, SourceId.reviewSite],
      winner := some SourceId.places } := rfl

/-- Modelled from the spec: the outcome of one source fetch (sections 4.1
and 4.4); the engine's code is not in the repository.  Success carries an
abstract enrichment payload. -/
inductive FetchResult
  | success (payload : Nat)
  | notFound
  | transientFailure
  | permanentFailure
deriving DecidableEq

/-- Cacheable responses per section 4.4: successful enrichments and
NotFound markers. -/
def cacheable : FetchResult → Bool
  | FetchResult.success _ => true
  | FetchResult.notFound => true
  | _ => false

/-- Modelled from the spec: the response cache keyed by SourceFingerprint
(section 4.4), as an association list; fingerprints are abstracted to
naturals. -/
abbrev Cache := List (Nat × FetchResult)

/-- Lookup of a fingerprint in the cache. -/
def cacheLookup (c : Cache) (fp : Nat) : Option FetchResult :=
  (c.find? fun e => e.1 == fp).map (fun e => e.2)

/-- Modelled from the spec: one get-or-populate fetch (section 4.4): the
lookup precedes the source call and a hit short-circuits it entirely;
success and NotFound responses are cached.  Returns the response, the
updated cache and the number of network calls issued. -/
def fetchOnce (net : Nat → FetchResult) (c : Cache) (fp : Nat) :
    FetchResult × Cache × Nat :=
  match cacheLookup c fp with
  | some r => (r, c, 0)
  | none => (net fp, if cacheable (net fp) then (fp, net fp) :: c else c, 1)

/-- The responses of a pipeline pass over a sequence of fingerprints. -/
def runOutputs (net : Nat → FetchResult) (c : Cache) : List Nat → List FetchResult
  | [] => []
  | fp :: fps => (fetchOnce net c fp).1 :: runOutputs net (fetchOnce net c fp).2.1 fps

/-- The cache state after a pipeline pass. -/
def runCache (net : Nat → FetchResult) (c : Cache) : List Nat → Cache
  | [] => c
  | fp :: fps => runCache net (fetchOnce net c fp).2.1 fps

/-- The number of network calls issued by a pipeline pass. -/
def runCalls (net : Nat → FetchResult) (c : Cache) : List Nat → Nat
  | [] => 0
  | fp :: fps => (fetchOnce net c fp).2.2 + runCalls net (fetchOnce net c fp).2.1 fps

/-- A cache is consistent with the (deterministic) source function when
every stored response is the one the source returns. -/
def cacheOK (net : Nat → FetchResult) (c : Cache) : Prop :=
  ∀ fp r, cacheLookup c fp = some r → r = net fp

lemma cacheOK_nil (net : Nat → FetchResult) : cacheOK net [] := by
  intro fp r h
  simp [cacheLookup] at h

lemma cacheLookup_cons (fp : Nat) (r : FetchResult) (c : Cache) (g : Nat) :
    cacheLookup ((fp, r) :: c) g = if fp = g then some r else cacheLookup c g := by
  by_cases h : fp = g <;> simp [cacheLookup, List.find?_cons, h]

lemma fetchOnce_result {net : Nat → FetchResult} {c : Cache} (fp : Nat)
    (hc : cacheOK net c) : (fetchOnce net c fp).1 = net fp := by
  unfold fetchOnce
  cases h : cacheLookup c fp with
  | some r => simpa using hc fp r h
  | none => simp

lemma fetchOnce_cacheOK {net : Nat → FetchResult} {c : Cache} (fp : Nat)
    (hc : cacheOK net c) : cacheOK net (fetchOnce net c fp).2.1 := by
  unfold fetchOnce
  cases h : cacheLookup c fp with
  | some r => simpa using hc
  | none =>
    simp only
    by_cases hca : cacheable (net fp) = true
    · rw [if_pos hca]
      intro g r' hg
      rw [cacheLookup_cons] at hg
      split at hg
      · cases Option.some.inj hg
        next heq => rw [← heq]
      · exact hc g r' hg
    · rw [if_neg hca]
      exact hc

lemma fetchOnce_warm {net : Nat → FetchResult} {c : Cache} (fp : Nat)
    (hca : cacheable (net fp) = true) :
    (cacheLookup (fetchOnce net c fp).2.1 fp).isSome := by
  unfold fetchOnce
  cases h : cacheLookup c fp with
  | some r => simp [h]
  | none => simp [hca, cacheLookup_cons]

lemma fetchOnce_mono {net : Nat → FetchResult} {c : Cache} {g : Nat} {r : FetchResult}
    (fp : Nat) (hg : cacheLookup c g = some r) :
    cacheLookup (fetchOnce net c fp).2.1 g = some r := by
  unfold fetchOnce
  cases h : cacheLookup c fp with
  | some r' => simpa using hg
  | none =>
    simp only
    by_cases hca : cacheable (net fp) = true
    · rw [if_pos hca, cacheLookup_cons, if_neg]
      · exact hg
      · intro hfg
        rw [hfg, hg] at h
        exact Option.noConfusion h
    · rw [if_neg hca]
      exact hg

lemma runCache_mono (net : Nat → FetchResult) (fps : List Nat) :
    ∀ c g r, cacheLookup c g = some r → cacheLookup (runCache net c fps) g = some r := by
  induction fps with
  | nil => intro c g r h; exact h
  | cons fp fps ih =>
    intro c g r h
    exact ih _ _ _ (fetchOnce_mono fp h)

lemma runCache_cacheOK (net : Nat → FetchResult) (fps : List Nat) :
    ∀ c, cacheOK net c → cacheOK net (runCache net c fps) := by
  induction fps with
  | nil => intro c hc; exact hc
  | cons fp fps ih =>
    intro c hc
    exact ih _ (fetchOnce_cacheOK fp hc)

lemma runOutputs_eq_map (net : Nat → FetchResult) (fps : List Nat) :
    ∀ c, cacheOK net c → runOutputs net c fps = fps.map net := by
  induction fps with
  | nil => intro c _; rfl
  | cons fp fps ih =>
    intro c hc
    show (fetchOnce net c fp).1 :: runOutputs net (fetchOnce net c fp).2.1 fps
        = net fp :: fps.map net
    rw [fetchOnce_result fp hc, ih _ (fetchOnce_cacheOK fp hc)]

lemma runCache_warm (net : Nat → FetchResult) (fps : List Nat) :
    ∀ c, (∀ fp ∈ fps, cacheable (net fp) = true) →
      ∀ fp ∈ fps, (cacheLookup (runCache net c fps) fp).isSome := by
  induction fps with
  | nil => intro c _ fp h; simp at h
  | cons fp0 fps ih =>
    intro c hca g hg
    rcases List.mem_cons.mp hg with rfl | hg
    · have hw := fetchOnce_warm (c := c) g (hca g (by simp))
      rcases Option.isSome_iff_exists.mp hw with ⟨r, hr⟩
      have := runCache_mono net fps _ _ _ hr
      show (cacheLookup (runCache net (fetchOnce net c g).2.1 fps) g).isSome
      simp [this]
    · exact ih _ (fun x hx => hca x (by simp [hx])) g hg

lemma runCalls_zero (net : Nat → FetchResult) (fps : List Nat) :
    ∀ c, (∀ fp ∈ fps, (cacheLookup c fp).isSome) → runCalls net c fps = 0 := by
  induction fps with
  | nil => intro c _; rfl
  | cons fp fps ih =>
    intro c hw
    rcases Option.isSome_iff_exists.mp (hw fp (by simp)) with ⟨r, hr⟩
    have hstep : fetchOnce net c fp = (r, c, 0) := by
      unfold fetchOnce
      rw [hr]
    show (fetchOnce net c fp).2.2 + runCalls net (fetchOnce net c fp).2.1 fps = 0
    rw [hstep]
    show 0 + runCalls net c fps = 0
    rw [Nat.zero_add]
    exact ih c (fun x hx => hw x (by simp [hx]))

/-- C6: re-running the pipeline over the same fingerprints with the warm
cache of a first run yields the identical output sequence and issues zero
network calls, provided every first-run response was cacheable (a success
or a NotFound marker, the two kinds section 4.4 stores). -/
theorem warm_cache_idempotent (net : Nat → FetchResult) (fps : List Nat)
    (hca : ∀ fp ∈ fps, cacheable (net fp) = true) :
    runOutputs net (runCache net [] fps) fps = runOutputs net [] fps ∧
    runCalls net (runCache net [] fps) fps = 0 := by
  have hOK : cacheOK net (runCache net [] fps) :=
    runCache_cacheOK net fps [] (cacheOK_nil net)
  constructor
  · rw [runOutputs_eq_map net fps _ hOK, runOutputs_eq_map net fps [] (cacheOK_nil net)]
  · exact runCalls_zero net fps _ (runCache_warm net fps [] hca)

/-- C6 witness: a concrete two-fingerprint run against a NotFound source. -/
theorem warm_cache_idempotent_witness :
    runOutputs (fun _ => FetchResult.notFound)
        (runCache (fun _ => FetchResult.notFound) [] [0, 1]) [0, 1] =
      runOutputs (fun _ => FetchResult.notFound) [] [0, 1] ∧
    runCalls (fun _ => FetchResult.notFound)
        (runCache (fun _ => FetchResult.notFound) [] [0, 1]) [0, 1] = 0 :=
  warm_cache_idempotent (fun _ => FetchResult.notFound) [0, 1] (by decide)

/-- Modelled from the spec: the outcome of a single client invocation
(sections 4.3 and 7); the retry machinery's code is not in the repository.
Failures carry an abstract message. -/
inductive Outcome
  | success (payload : Nat)
  | transientFailure (msg : Nat)
  | permanentFailure (msg : Nat)
deriving DecidableEq

/-- Modelled from the spec: RetryPolicy (section 4.3) — invoke the client
(indexed by attempt number); a Transient failure is retried while attempts
remain and the last failure is returned on exhaustion; a Permanent failure
or a success is returned immediately.  Returns the final outcome and the
number of invocations made.  With zero attempts allowed the client is never
invoked. -/
def retryFetch (client : Nat → Outcome) : Nat → Nat → Outcome × Nat
  | _, 0 => (Outcome.transientFailure 0, 0)
  | attempt, 1 => (client attempt, 1)
  | attempt, left + 2 =>
    match client attempt with
    | Outcome.transientFailure _ =>
      ((retryFetch client (attempt + 1) (left + 1)).1,
       (retryFetch client (attempt + 1) (left + 1)).2 + 1)
    | r => (r, 1)

/-- Run the retry wrapper from the first attempt with a configured maximum
attempt count. -/
def runWithRetry (maxAttempts : Nat) (client : Nat → Outcome) : Outcome × Nat :=
  retryFetch client 0 maxAttempts

lemma retryFetch_transient (client : Nat → Outcome)
    (h : ∀ n, ∃ m, client n = Outcome.transientFailure m) :
    ∀ left attempt, retryFetch client attempt (left + 1) = (client (attempt + left), left + 1) := by
  intro left
  induction left with
  | zero =>
    intro attempt
    show retryFetch client attempt 1 = (client (attempt + 0), 1)
    rw [Nat.add_zero]
    rfl
  | succ k ih =>
    intro attempt
    obtain ⟨m, hm⟩ := h attempt
    show retryFetch client attempt (k + 2) = (client (attempt + (k + 1)), k + 2)
    have hunf : retryFetch client attempt (k + 2)
        = ((retryFetch client (attempt + 1) (k + 1)).1,
           (retryFetch client (attempt + 1) (k + 1)).2 + 1) := by
      conv_lhs => rw [retryFetch]
      rw [hm]
    rw [hunf, ih (attempt + 1)]
    have harg : attempt + 1 + k = attempt + (k + 1) := by omega
    rw [harg]

lemma retryFetch_count_le (client : Nat → Outcome) :
    ∀ left attempt, (retryFetch client attempt left).2 ≤ left := by
  intro left
  induction left using Nat.strong_induction_on with
  | _ left ih =>
    intro attempt
    match left with
    | 0 => exact Nat.le_refl 0
    | 1 => exact Nat.le_refl 1
    | k + 2 =>
      show (retryFetch client attempt (k + 2)).2 ≤ k + 2
      conv_lhs => rw [retryFetch]
      cases hcl : client attempt with
      | success v =>
        show (1 : Nat) ≤ k + 2
        omega
      | transientFailure m =>
        show (retryFetch client (attempt + 1) (k + 1)).2 + 1 ≤ k + 2
        have := ih (k + 1) (by omega) (attempt + 1)
        omega
      | permanentFailure m =>
        show (1 : Nat) ≤ k + 2
        omega

/-- C7: with at least one attempt allowed, a client that always fails with
a Transient failure is invoked exactly maxAttempts times and the last
failure is returned; a Permanent failure on the first attempt is returned
after exactly one invocation; and the invocation count never exceeds
maxAttempts. -/
theorem retry_bounds (maxAttempts : Nat) (client : Nat → Outcome)
    (h1 : 1 ≤ maxAttempts) :
    ((∀ n, ∃ m, client n = Outcome.transientFailure m) →
      runWithRetry maxAttempts client = (client (maxAttempts - 1), maxAttempts)) ∧
    (∀ m, client 0 = Outcome.permanentFailure m →
      runWithRetry maxAttempts client = (Outcome.permanentFailure m, 1)) ∧
    (runWithRetry maxAttempts client).2 ≤ maxAttempts := by
  refine ⟨?_, ?_, retryFetch_count_le client maxAttempts 0⟩
  · intro hT
    unfold runWithRetry
    obtain ⟨k, rfl⟩ : ∃ k, maxAttempts = k + 1 := ⟨maxAttempts - 1, by omega⟩
    rw [retryFetch_transient client hT k 0]
    have harg : 0 + k = k + 1 - 1 := by omega
    rw [harg]
  · intro m hm
    unfold runWithRetry
    cases maxAttempts with
    | zero => exact absurd h1 (by decide)
    | succ k =>
      cases k with
      | zero =>
        show (client 0, 1) = (Outcome.permanentFailure m, 1)
        rw [hm]
      | succ j =>
        conv_lhs => rw [retryFetch]
        rw [hm]

/-- C7 witness: an always-transient client with the default three attempts
is invoked exactly three times and the third transient failure is the
result. -/
theorem retry_bounds_witness :
    runWithRetry 3 (fun n => Outcome.transientFailure n) = (Outcome.transientFailure 2, 3) :=
  (retry_bounds 3 (fun n => Outcome.transientFailure n) (by decide)).1 (fun n => ⟨n, rfl⟩)

end PlaygroundSite
